import Mathlib

/-!
Verification of the Limesub subtitle conversion pipeline.

This file gives a shallow embedding, in Lean 4, of the core of the Limesub
subtitle converter (a Go program): the time parser (`utils.go`), the SRT
decoder and JSON decoder (`converter.go`, provided unnamed), the
classify/merge/emit pipeline (`pipeline.go`), and the per-style-line part of
the ASS resolution resampler (`pipeline.go`).

Modelling conventions:
* Go strings are modelled as `List Char`; byte-level UTF-8 details are not
  modelled (all inputs of interest are ASCII).
* Go's `float64` values produced by `strconv.ParseFloat` on decimal literals,
  and the arithmetic the program performs on them, are modelled exactly by
  decimal fixed-point numbers (`Dec`, a mantissa with a power-of-ten scale).
  On every value exercised here the float64 computation and the exact
  computation agree.
* The merge tolerance (a `float64` number of seconds in Go) is modelled as a
  rational number; the comparison `math.Abs(float64(gap)) <= tolerance*1000`
  is computed by exact cross-multiplication (`gapWithin`), proved equivalent
  to the rational inequality in `gapWithin_iff`.
* Go regular expressions are modelled by executable scanners implementing the
  semantics of the concrete pattern used at each call site (RE2,
  leftmost-first, `.` not matching a newline); each scanner's doc comment
  quotes the pattern it implements.
* `sort.SliceStable` is modelled by a stable insertion sort: the stable sort
  of a list by a total preorder is unique, so any stable sorting algorithm is
  a faithful model.
-/

namespace Limesub

/-! ### Characters and whitespace -/

/-- The character `{` (written via its code point throughout). -/
def lbrace : Char := Char.ofNat 123

/-- The character `}` (written via its code point throughout). -/
def rbrace : Char := Char.ofNat 125

/-- Whitespace as trimmed by Go's `strings.TrimSpace` (`unicode.IsSpace`),
restricted to ASCII: space, tab, newline, vertical tab, form feed, carriage
return. -/
def isSpaceGo (c : Char) : Bool :=
  c = ' ' || c = '\t' || c = '\n' || c = '\x0b' || c = '\x0c' || c = '\r'

/-- Whitespace as matched by the RE2 character class `\s`:
`[\t\n\f\r ]` (no vertical tab). -/
def isSpaceRe (c : Char) : Bool :=
  c = ' ' || c = '\t' || c = '\n' || c = '\x0c' || c = '\r'

/-- Drop matching characters from the end of a list. -/
def dropTrail (p : Char → Bool) (l : List Char) : List Char :=
  (l.reverse.dropWhile p).reverse

/-- Trim matching characters from both ends of a list. -/
def trimBy (p : Char → Bool) (l : List Char) : List Char :=
  dropTrail p (l.dropWhile p)

/-- Go's `strings.TrimSpace`. -/
def trimSpace (l : List Char) : List Char := trimBy isSpaceGo l

/-- ASCII lower-casing of one character (Go's `strings.ToLower` restricted to
ASCII input). -/
def toLowerAscii (c : Char) : Char :=
  if 'A' ≤ c && c ≤ 'Z' then Char.ofNat (c.toNat + 32) else c

/-- Go's `strings.ToLower` (ASCII). -/
def lowerList (l : List Char) : List Char := l.map toLowerAscii

/-- Go's `strings.Split` on a single-character separator. -/
def splitOnChar (sep : Char) : List Char → List (List Char)
  | [] => [[]]
  | c :: rest =>
    if c = sep then [] :: splitOnChar sep rest
    else
      match splitOnChar sep rest with
      | [] => [[c]]
      | g :: gs => (c :: g) :: gs

/-- Go's `strings.TrimSuffix`: drop `suf` from the end of `l` when present. -/
def trimSuffixList (l suf : List Char) : List Char :=
  if suf.isSuffixOf l then l.take (l.length - suf.length) else l

/-! ### Exact decimals standing in for `float64`

`Dec` models the exact value `man / 10 ^ exp`.  `strconv.ParseFloat` applied
to the plain decimal literals this program feeds it yields the float64
nearest to such a value, and the subsequent multiplications by `1000`, `3600`,
`60`, additions, the comparison with `1000` and the truncation `int64(f)` are
modelled here exactly. -/

structure Dec where
  man : Int
  exp : Nat
deriving DecidableEq

/-- The decimal zero (Go's `float64` zero, the value a failed `ParseFloat`
leaves behind). -/
def dec0 : Dec := ⟨0, 0⟩

/-- Multiplication of a decimal by a natural constant. -/
def Dec.mulNat (a : Dec) (k : Nat) : Dec := ⟨a.man * k, a.exp⟩

/-- Addition of decimals (aligning the scales). -/
def Dec.add (a b : Dec) : Dec :=
  if a.exp ≤ b.exp then ⟨a.man * 10 ^ (b.exp - a.exp) + b.man, b.exp⟩
  else ⟨a.man + b.man * 10 ^ (a.exp - b.exp), a.exp⟩

/-- Go's `int64(f)`: truncation toward zero. -/
def Dec.trunc (a : Dec) : Int := a.man.tdiv (10 ^ a.exp)

/-- The comparison `f > k` for a natural constant `k`. -/
def Dec.gtNat (a : Dec) (k : Nat) : Bool := decide ((k : Int) * 10 ^ a.exp < a.man)

/-- Rational value of a decimal (specification only). -/
def Dec.toQ (a : Dec) : ℚ := (a.man : ℚ) / (10 : ℚ) ^ a.exp

/-- Numeric value of a digit string. -/
def digitsVal (l : List Char) : Nat := l.foldl (fun a c => 10 * a + (c.toNat - 48)) 0

/-- The fragment of Go's `strconv.ParseFloat` exercised by this program:
an optional sign, decimal digits, an optional fractional part.  (Go also
accepts exponents, hexadecimal floats, `inf` and `nan`; no call site in this
program feeds it such strings.)  `none` models a parse error. -/
def parseFloatDec (l : List Char) : Option Dec :=
  let sgn : Int := match l.head? with | some '-' => -1 | _ => 1
  let body := match l with
    | '-' :: t => t
    | '+' :: t => t
    | _ => l
  match splitOnChar '.' body with
  | [ip] =>
    if !ip.isEmpty && ip.all Char.isDigit then some ⟨sgn * digitsVal ip, 0⟩ else none
  | [ip, fp] =>
    if !(ip.isEmpty && fp.isEmpty) && ip.all Char.isDigit && fp.all Char.isDigit then
      some ⟨sgn * (digitsVal ip * 10 ^ fp.length + digitsVal fp), fp.length⟩
    else none
  | _ => none

/-! ### The time parser (`utils.go`, `parseTimeStringToMs`) -/

/-- `utils.go parseTimeStringToMs`: convert a timestamp string to integer
milliseconds, defaulting to `0` wherever Go's `ParseFloat` would fail (the Go
code discards the error and keeps the zero value).  Total function: no error
is ever propagated. -/
def parseTimeStringToMs (s : List Char) : Int :=
  if s.isEmpty then 0
  else
    let s1 := trimSpace s
    let s2 := s1.map fun c => if c = ',' then '.' else c
    if ("ms".toList).isSuffixOf (lowerList s2) then
      let v := trimSuffixList (lowerList s2) ("ms".toList)
      ((parseFloatDec (trimSpace v)).getD dec0).trunc
    else if ("s".toList).isSuffixOf (lowerList s2) then
      let v := trimSuffixList (lowerList s2) ("s".toList)
      (((parseFloatDec (trimSpace v)).getD dec0).mulNat 1000).trunc
    else if 1 ≤ s2.count ':' then
      match splitOnChar ':' s2 with
      | [p0, p1, p2] =>
        let hh := (parseFloatDec p0).getD dec0
        let mm := (parseFloatDec p1).getD dec0
        let ss := (parseFloatDec p2).getD dec0
        ((((hh.mulNat 3600).add (mm.mulNat 60)).add ss).mulNat 1000).trunc
      | [p0, p1] =>
        let mm := (parseFloatDec p0).getD dec0
        let ss := (parseFloatDec p1).getD dec0
        (((mm.mulNat 60).add ss).mulNat 1000).trunc
      | _ =>
        (((parseFloatDec s2).getD dec0).mulNat 1000).trunc
    else
      match parseFloatDec s2 with
      | some f => if f.gtNat 1000 then f.trunc else (f.mulNat 1000).trunc
      | none => 0

/-! ### Data model -/

/-- `converter.go SRTBlock`: the common intermediate timed-text block. -/
structure SRTBlock where
  Index : Int
  StartMs : Int
  EndMs : Int
  Text : List Char
deriving DecidableEq

/-- `pipeline.go`: the per-line dialogue record (the local `Dlg` struct of
`ConvertSRTBlocksToASS`, also the element type of the two merge passes). -/
structure Dlg where
  Start : Int
  End : Int
  Text : List Char
  Style : String
deriving DecidableEq

/-! ### Generic scanner for the regex replacements

`replaceAllRe m repl l` models `re.ReplaceAllString` for a pattern whose
matches are recognised by `m`: `m` inspects the input at the current
position and returns the remainder after a match (every matcher below
consumes at least one character), or `none`.  The scan is leftmost,
restarting after each replacement, exactly as RE2's `ReplaceAll` does.  The
fuel argument (initially the input length) only establishes termination. -/

def scanRepl (m : List Char → Option (List Char)) (repl : List Char) :
    Nat → List Char → List Char
  | 0, l => l
  | _ + 1, [] => []
  | fuel + 1, c :: rest =>
    match m (c :: rest) with
    | some rem => repl ++ scanRepl m repl fuel rem
    | none => c :: scanRepl m repl fuel rest

/-- Run a scanner over a whole list. -/
def replaceAllRe (m : List Char → Option (List Char)) (repl : List Char)
    (l : List Char) : List Char :=
  scanRepl m repl l.length l

/-! ### The style classifier (`pipeline.go`, `detectStyle`) -/

/-- Matcher for one match of the pattern `\{.*?\}` (non-greedy, `.` does not
match a newline): a `{`, then the nearest following `}` with no intervening
newline. -/
def matchTagSpan : List Char → Option (List Char)
  | [] => none
  | c :: rest =>
    if c = lbrace then
      match rest.dropWhile (fun x => x ≠ rbrace && x ≠ '\n') with
      | r :: rem => if r = rbrace then some rem else none
      | [] => none
    else none

/-- `reTag.ReplaceAllString(text, "")` for `reTag = \{.*?\}`. -/
def removeTags (l : List Char) : List Char := replaceAllRe matchTagSpan [] l

/-- Whole-string match of `^[^a-z]+$`: non-empty, with no lowercase ASCII
letter anywhere. -/
def capsRe (l : List Char) : Bool :=
  !l.isEmpty && l.all fun c => !('a' ≤ c && c ≤ 'z')

/-- Trim by the RE2 class `\s`. -/
def trimRe (l : List Char) : List Char := trimBy isSpaceRe l

/-- Whole-string match of `^\s*[\(\[].*[\)\]]\s*$` (`.` does not match a
newline, `\s` may): after stripping surrounding `\s`-whitespace the first
character is `(` or `[`, the last is `)` or `]`, and no newline stands
between them. -/
def wrapCheck : List Char → Bool
  | [] => false
  | c :: rest =>
    match rest.getLast? with
    | none => false
    | some lastc =>
      (c = '(' || c = '[') && (lastc = ')' || lastc = ']') &&
        rest.dropLast.all (fun x => x ≠ '\n')

/-- Whole-string match of the wrap pattern on `l`. -/
def wrapRe (l : List Char) : Bool := wrapCheck (trimRe l)

/-- `pipeline.go detectStyle`: classify a text as `"tanda"` or `"Default"`. -/
def detectStyle (text : List Char) : String :=
  let clean := trimSpace (removeTags text)
  if clean.isEmpty then "Default"
  else if capsRe clean then "tanda"
  else if wrapRe clean then "tanda"
  else "Default"

/-! ### Splitting multi-line cues (`pipeline.go`, `splitMultiline`) -/

/-- `pipeline.go splitMultiline`: one block per newline-separated line of each
cue's text, all inheriting the cue's timing, each line trimmed. -/
def splitMultiline : List SRTBlock → List SRTBlock
  | [] => []
  | b :: bs =>
    ((splitOnChar '\n' b.Text).map fun ln =>
      { Index := b.Index, StartMs := b.StartMs, EndMs := b.EndMs,
        Text := trimSpace ln }) ++ splitMultiline bs

/-- Stage 2 of `ConvertSRTBlocksToASS`: attach the detected style. -/
def classifyBlocks (lines : List SRTBlock) : List Dlg :=
  lines.map fun b => { Start := b.StartMs, End := b.EndMs, Text := b.Text,
                       Style := detectStyle b.Text }

/-! ### The coalescing merge pass (`pipeline.go`, `mergeSameOrContinuous`) -/

/-- Collapse runs matched by the RE2 class `\s` to a single space
(`\s+` → `" "`); the flag records whether the previous character belonged to
a run. -/
def collapseWsAux : Bool → List Char → List Char
  | _, [] => []
  | inRun, c :: rest =>
    if isSpaceRe c then
      if inRun then collapseWsAux true rest else ' ' :: collapseWsAux true rest
    else c :: collapseWsAux false rest

/-- `pipeline.go normalizeSpaces`: collapse whitespace runs, then trim. -/
def normalizeSpaces (l : List Char) : List Char :=
  trimSpace (collapseWsAux false l)

/-- The continuity test `math.Abs(float64(cur.Start-last.End)) <= tolerance*1000`,
computed by exact cross-multiplication over the rational tolerance (see
`gapWithin_iff`). -/
def gapWithin (tol : ℚ) (gap : Int) : Bool :=
  decide (|gap| * (tol.den : Int) ≤ tol.num * 1000)

/-- Stable insertion of a block into an already sorted list, placing it
before all blocks of strictly larger start and after earlier blocks of equal
start. -/
def insertDlg (d : Dlg) : List Dlg → List Dlg
  | [] => [d]
  | e :: es => if d.Start ≤ e.Start then d :: e :: es else e :: insertDlg d es

/-- `sort.SliceStable(arr, func(i, j) { return arr[i].Start < arr[j].Start })`,
modelled by the (unique) stable sort by start time. -/
def sortByStart (l : List Dlg) : List Dlg := l.foldr insertDlg []

/-- Body of the coalescing loop of `mergeSameOrContinuous`, acting on the
accumulator in reverse order (the head of `merged` is the last emitted
block).  Mirrors the chained tests of the Go loop: same style and
space-normalised text, then exact-duplicate discard, then continuity
extension, else emit. -/
def mergeStep (tol : ℚ) (merged : List Dlg) (cur : Dlg) : List Dlg :=
  match merged with
  | [] => [cur]
  | last :: rest =>
    if last.Style = cur.Style ∧ normalizeSpaces last.Text = normalizeSpaces cur.Text then
      if last.Start = cur.Start ∧ last.End = cur.End then last :: rest
      else if gapWithin tol (cur.Start - last.End) then
        { last with End := cur.End } :: rest
      else cur :: last :: rest
    else cur :: last :: rest

/-- `pipeline.go mergeSameOrContinuous`: stable sort by start, then one
sequential coalescing pass. -/
def mergeSameOrContinuous (dlgs : List Dlg) (tol : ℚ) : List Dlg :=
  ((sortByStart dlgs).foldl (mergeStep tol) []).reverse

/-! ### The group-and-join pass (`pipeline.go`, `mergeSameTimeAndStyle`) -/

/-- The grouping key `(start, end, style)` (the local `key` struct). -/
structure GKey where
  S : Int
  E : Int
  Sty : String
deriving DecidableEq

/-- Key of a block. -/
def keyOf (d : Dlg) : GKey := { S := d.Start, E := d.End, Sty := d.Style }

/-- Association-list model of the Go map `groups`: lookup. -/
def alGet : List (GKey × List (List Char)) → GKey → Option (List (List Char))
  | [], _ => none
  | (k', v) :: rest, k => if k' = k then some v else alGet rest k

/-- Association-list model of `groups[k] = append(groups[k], text)`. -/
def alAppend : List (GKey × List (List Char)) → GKey → List Char →
    List (GKey × List (List Char))
  | [], k, t => [(k, [t])]
  | (k', v) :: rest, k, t =>
    if k' = k then (k', v ++ [t]) :: rest else (k', v) :: alAppend rest k t

/-- One iteration of the grouping loop: record the key in `order` on first
sight, then append the text to the key's group. -/
def addToGroups (st : List (GKey × List (List Char)) × List GKey) (d : Dlg) :
    List (GKey × List (List Char)) × List GKey :=
  let k := keyOf d
  let order := if (alGet st.1 k).isSome then st.2 else st.2 ++ [k]
  (alAppend st.1 k d.Text, order)

/-- The grouping loop of `mergeSameTimeAndStyle`. -/
def buildGroups (dlgs : List Dlg) : List (GKey × List (List Char)) × List GKey :=
  dlgs.foldl addToGroups ([], [])

/-- `strings.Join(texts, "\N")` — the literal two characters backslash, `N`. -/
def joinN (texts : List (List Char)) : List Char :=
  List.intercalate ['\\', 'N'] texts

/-- `pipeline.go mergeSameTimeAndStyle`: group blocks by `(start, end, style)`
and join each group's texts with `\N`, emitting groups in first-occurrence
order of their keys. -/
def mergeSameTimeAndStyle (dlgs : List Dlg) : List Dlg :=
  let st := buildGroups dlgs
  st.2.map fun k =>
    { Start := k.S, End := k.E, Text := joinN ((alGet st.1 k).getD []),
      Style := k.Sty }

/-! ### The tag sanitizer (`pipeline.go`, `cleanFontAndEffects`) -/

/-- Character class `[^\\}]`. -/
def isTagBodyChar (c : Char) : Bool := c ≠ '\\' && c ≠ rbrace

/-- Matcher for `(?i)\\fn[^\\\}]+`. -/
def matchFn : List Char → Option (List Char)
  | b :: f :: n :: rest =>
    if b = '\\' && toLowerAscii f = 'f' && toLowerAscii n = 'n' then
      if (rest.takeWhile isTagBodyChar).isEmpty then none
      else some (rest.dropWhile isTagBodyChar)
    else none
  | _ => none

/-- Matcher for `(?i)\\fs\d+`. -/
def matchFs : List Char → Option (List Char)
  | b :: f :: s :: rest =>
    if b = '\\' && toLowerAscii f = 'f' && toLowerAscii s = 's' then
      if (rest.takeWhile Char.isDigit).isEmpty then none
      else some (rest.dropWhile Char.isDigit)
    else none
  | _ => none

/-- Matcher for `(?i)\{\\blur[^}]*\}`. -/
def matchBlurTag : List Char → Option (List Char)
  | a :: b :: c1 :: c2 :: c3 :: c4 :: rest =>
    if a = lbrace && b = '\\' && toLowerAscii c1 = 'b' && toLowerAscii c2 = 'l'
        && toLowerAscii c3 = 'u' && toLowerAscii c4 = 'r' then
      match rest.dropWhile (fun x => x ≠ rbrace) with
      | r :: rem => if r = rbrace then some rem else none
      | [] => none
    else none
  | _ => none

/-- Matcher for `(?i)\{\\fad\([^}]*\)}`: the first `}` after `{\fad(` must be
immediately preceded by `)`. -/
def matchFadTag : List Char → Option (List Char)
  | a :: b :: c1 :: c2 :: c3 :: c4 :: rest =>
    if a = lbrace && b = '\\' && toLowerAscii c1 = 'f' && toLowerAscii c2 = 'a'
        && toLowerAscii c3 = 'd' && c4 = '(' then
      match rest.dropWhile (fun x => x ≠ rbrace) with
      | r :: rem =>
        if r = rbrace && (rest.takeWhile (fun x => x ≠ rbrace)).getLast? = some ')' then
          some rem
        else none
      | [] => none
    else none
  | _ => none

/-- Matcher for `(?i)\\blur[0-9.]+`. -/
def matchBlurInline : List Char → Option (List Char)
  | b :: c1 :: c2 :: c3 :: c4 :: rest =>
    if b = '\\' && toLowerAscii c1 = 'b' && toLowerAscii c2 = 'l'
        && toLowerAscii c3 = 'u' && toLowerAscii c4 = 'r' then
      if (rest.takeWhile fun c => Char.isDigit c || c = '.').isEmpty then none
      else some (rest.dropWhile fun c => Char.isDigit c || c = '.')
    else none
  | _ => none

/-- Matcher for `(?i)\\fad\([^)]*\)`. -/
def matchFadInline : List Char → Option (List Char)
  | b :: c1 :: c2 :: c3 :: c4 :: rest =>
    if b = '\\' && toLowerAscii c1 = 'f' && toLowerAscii c2 = 'a'
        && toLowerAscii c3 = 'd' && c4 = '(' then
      match rest.dropWhile (fun x => x ≠ ')') with
      | _ :: rem => some rem
      | [] => none
    else none
  | _ => none

/-- `strings.ReplaceAll(out, "{}", "")`. -/
def removeEmptyBraces : List Char → List Char
  | [] => []
  | [c] => [c]
  | c :: r :: rem =>
    if c = lbrace ∧ r = rbrace then removeEmptyBraces rem
    else c :: removeEmptyBraces (r :: rem)

/-- `pipeline.go cleanFontAndEffects`: the six regex removals in source
order, then removal of empty `{}` wrappers. -/
def cleanFontAndEffects (s : List Char) : List Char :=
  removeEmptyBraces
    (replaceAllRe matchFadInline []
      (replaceAllRe matchBlurInline []
        (replaceAllRe matchFadTag []
          (replaceAllRe matchBlurTag []
            (replaceAllRe matchFs []
              (replaceAllRe matchFn [] s))))))

/-! ### The ASS emitter (`pipeline.go`, `formatMsToASSTime` and step 6) -/

/-- Decimal rendering of an integer (Go's `%d`). -/
def intToChars (n : Int) : List Char :=
  if n < 0 then '-' :: Nat.toDigits 10 n.natAbs else Nat.toDigits 10 n.toNat

/-- Go's `%02d`. -/
def pad2 (n : Int) : List Char :=
  let s := intToChars n
  if s.length < 2 then '0' :: s else s

/-- `pipeline.go formatMsToASSTime`: `H:MM:SS.cc` with centiseconds, using
Go's truncating integer division. -/
def formatMsToASSTime (ms : Int) : List Char :=
  let totalSec := ms.tdiv 1000
  let h := totalSec.tdiv 3600
  let m := (totalSec.tmod 3600).tdiv 60
  let s := totalSec.tmod 60
  let centi := (ms.tmod 1000).tdiv 10
  intToChars h ++ ':' :: pad2 m ++ ':' :: pad2 s ++ '.' :: pad2 centi

/-- The default effect prefix `{\blur3}{\fad(00,40)}` prepended to every
non-`tanda` dialogue. -/
def effectTag : List Char :=
  [lbrace, '\\', 'b', 'l', 'u', 'r', '3', rbrace,
   lbrace, '\\', 'f', 'a', 'd', '(', '0', '0', ',', '4', '0', ')', rbrace]

/-- One output line:
`Dialogue: 0,<start>,<end>,<style>,,0,0,0,,<text>` with the effect prefix on
non-`tanda` styles. -/
def dialogueLine (d : Dlg) : List Char :=
  "Dialogue: 0,".toList ++ formatMsToASSTime d.Start ++ ',' ::
    formatMsToASSTime d.End ++ ',' :: d.Style.toList ++ ",,0,0,0,,".toList ++
    (if d.Style = "tanda" then d.Text else effectTag ++ d.Text)

/-- `pipeline.go ConvertSRTBlocksToASS`: split multi-line cues, classify,
coalesce, group-and-join, sanitize tags, emit `Dialogue:` lines. -/
def ConvertSRTBlocksToASS (blocks : List SRTBlock) (tolerance : ℚ) :
    List (List Char) :=
  let lines := splitMultiline blocks
  let dlgs1 := classifyBlocks lines
  let dlgs2 := mergeSameOrContinuous dlgs1 tolerance
  let dlgs3 := mergeSameTimeAndStyle dlgs2
  let dlgs4 := dlgs3.map fun d => { d with Text := cleanFontAndEffects d.Text }
  dlgs4.map dialogueLine

/-! ### The SRT decoder (`converter.go`, `parseSRTString`) -/

/-- `strings.ReplaceAll(content, "\r\n", "\n")`. -/
def replaceCRLF : List Char → List Char
  | [] => []
  | '\r' :: '\n' :: rest => '\n' :: replaceCRLF rest
  | c :: rest => c :: replaceCRLF rest

/-- Prepend a character to the first group of a split result. -/
def consHead (c : Char) : List (List Char) → List (List Char)
  | [] => [[c]]
  | g :: gs => (c :: g) :: gs

/-- `regexp.MustCompile`+`Split` for the pattern `\n{2,}` (fuelled scanner):
a maximal run of two or more newlines separates groups. -/
def splitBlankAux : Nat → List Char → List (List Char)
  | 0, l => [l]
  | _ + 1, [] => [[]]
  | fuel + 1, c :: rest =>
    if c = '\n' then
      match rest with
      | r :: _ =>
        if r = '\n' then [] :: splitBlankAux fuel (rest.dropWhile fun x => x = '\n')
        else consHead c (splitBlankAux fuel rest)
      | [] => consHead c (splitBlankAux fuel rest)
    else consHead c (splitBlankAux fuel rest)

/-- Split on runs of two or more newlines. -/
def splitBlankRuns (l : List Char) : List (List Char) := splitBlankAux l.length l

/-- `strings.Contains` (fuelled sliding check). -/
def containsSubAux (pat : List Char) : Nat → List Char → Bool
  | 0, l => pat.isPrefixOf l
  | _ + 1, [] => pat.isPrefixOf ([] : List Char)
  | fuel + 1, c :: rest => pat.isPrefixOf (c :: rest) || containsSubAux pat fuel rest

/-- `strings.Contains(l, pat)`. -/
def containsSub (l pat : List Char) : Bool := containsSubAux pat l.length l

/-- `strings.Split` on a multi-character separator (fuelled scanner). -/
def splitSubAux (pat : List Char) : Nat → List Char → List (List Char)
  | 0, l => [l]
  | _ + 1, [] => [[]]
  | fuel + 1, c :: rest =>
    if pat.isPrefixOf (c :: rest) then
      [] :: splitSubAux pat fuel ((c :: rest).drop pat.length)
    else consHead c (splitSubAux pat fuel rest)

/-- `strings.Split(l, pat)` for non-empty `pat`. -/
def splitSub (l pat : List Char) : List (List Char) := splitSubAux pat l.length l

/-- `converter.go parseSRTTimeLine`: split the timing line on `-->` and parse
both sides. -/
def parseSRTTimeLine (line : List Char) : Int × Int :=
  match splitSub line ("-->".toList) with
  | p0 :: p1 :: _ =>
    (parseTimeStringToMs (trimSpace p0), parseTimeStringToMs (trimSpace p1))
  | _ => (0, 0)

/-- The inner loop of `parseSRTString`: first line containing `-->`, together
with the lines after it. -/
def findTimeLine : List (List Char) → Option (List Char × List (List Char))
  | [] => none
  | ln :: rest =>
    if containsSub ln ("-->".toList) then some (ln, rest) else findTimeLine rest

/-- The block loop of `parseSRTString`: parts with fewer than two lines or
without a timing line are skipped (and do not consume an index). -/
def parseSRTParts : Int → List (List Char) → List SRTBlock
  | _, [] => []
  | idx, p :: ps =>
    let lines := splitOnChar '\n' p
    if lines.length < 2 then parseSRTParts idx ps
    else
      match findTimeLine lines with
      | none => parseSRTParts idx ps
      | some (timeLine, textLines) =>
        let se := parseSRTTimeLine timeLine
        { Index := idx, StartMs := se.1, EndMs := se.2,
          Text := List.intercalate ['\n'] textLines } :: parseSRTParts (idx + 1) ps

/-- `converter.go parseSRTString`: normalise line endings, trim, split into
blank-line-separated parts, decode each part. -/
def parseSRTString (content : List Char) : List SRTBlock :=
  let c1 := (replaceCRLF content).map fun c => if c = '\r' then '\n' else c
  parseSRTParts 1 (splitBlankRuns (trimSpace c1))


/-! ### Specification-side view of the group-and-join pass

`groupJoinSpec` renders the specification's description of
`mergeSameTimeAndStyle` — "blocks sharing an identical `(start, end, style)`
triple are merged into one block whose text is the per-group member texts
joined with `\N`, in first-occurrence order of each distinct group key" —
directly as first-occurrence key discovery plus an in-order filter, to be
compared with the map-plus-order-slice implementation above. -/

/-- Record a key on first sight, preserving discovery order. -/
def insKey (acc : List GKey) (k : GKey) : List GKey :=
  if k ∈ acc then acc else acc ++ [k]

/-- Keys of a list in first-occurrence order. -/
def firstOccur (ks : List GKey) : List GKey := ks.foldl insKey []

/-- The group-and-join pass as the specification words it. -/
def groupJoinSpec (dlgs : List Dlg) : List Dlg :=
  (firstOccur (dlgs.map keyOf)).map fun k =>
    { Start := k.S, End := k.E,
      Text := joinN ((dlgs.filter fun d => keyOf d = k).map (·.Text)),
      Style := k.Sty }

/-! ### Concrete rational tolerances

Rationals are written as explicit normal forms so that the merge passes
evaluate by kernel reduction; `qTenth_eq`/`qFiftieth_eq` tie them to the
ordinary numerals. -/

/-- The rational 1/10 (the default tolerance, 0.1 s) in normal form. -/
def qTenth : ℚ := ⟨1, 10, by norm_num, by norm_num⟩

/-- The rational 1/50 (the tolerance 0.02 s) in normal form. -/
def qFiftieth : ℚ := ⟨1, 50, by norm_num, by norm_num⟩

theorem qTenth_eq : (1 / 10 : ℚ) = qTenth := by
  rw [qTenth, Rat.mk'_eq_divInt, Rat.divInt_eq_div]; norm_num

theorem qFiftieth_eq : (1 / 50 : ℚ) = qFiftieth := by
  rw [qFiftieth, Rat.mk'_eq_divInt, Rat.divInt_eq_div]; norm_num

/-- The executable continuity test agrees with the float-level test of the
source, `|gap| ≤ tolerance * 1000`, read over the rationals. -/
theorem gapWithin_iff (tol : ℚ) (gap : Int) :
    gapWithin tol gap = true ↔ |(gap : ℚ)| ≤ tol * 1000 := by
  simp only [gapWithin, decide_eq_true_eq]
  have hden : (0 : ℚ) < (tol.den : ℚ) := by positivity
  rw [show (|(gap : ℚ)|) = ((|gap| : ℤ) : ℚ) by push_cast; ring]
  conv_rhs => rw [← Rat.num_div_den tol]
  rw [div_mul_eq_mul_div, le_div_iff₀ hden]
  norm_cast

/-! ### Sortedness of the pipeline output -/

/-- Membership in an insertion. -/
theorem mem_insertDlg (d x : Dlg) (l : List Dlg) :
    x ∈ insertDlg d l ↔ x = d ∨ x ∈ l := by
  induction l with
  | nil => simp [insertDlg]
  | cons e es ih =>
    by_cases h : d.Start ≤ e.Start
    · simp [insertDlg, h]
    · simp [insertDlg, h, ih]
      tauto

/-- Insertion preserves sortedness by start. -/
theorem insertDlg_pairwise (d : Dlg) (l : List Dlg)
    (h : l.Pairwise fun a b => a.Start ≤ b.Start) :
    (insertDlg d l).Pairwise fun a b => a.Start ≤ b.Start := by
  induction l with
  | nil => simp [insertDlg]
  | cons e es ih =>
    rw [List.pairwise_cons] at h
    by_cases hde : d.Start ≤ e.Start
    · rw [insertDlg, if_pos hde]
      refine List.Pairwise.cons ?_ (List.Pairwise.cons h.1 h.2)
      intro x hx
      rcases List.mem_cons.mp hx with hx | hx
      · exact hx ▸ hde
      · exact le_trans hde (h.1 x hx)
    · rw [insertDlg, if_neg hde]
      refine List.Pairwise.cons ?_ (ih h.2)
      intro x hx
      rcases (mem_insertDlg d x es).mp hx with hx | hx
      · exact hx ▸ le_of_not_le hde
      · exact h.1 x hx

/-- The stable sort is sorted by start. -/
theorem sortByStart_pairwise (l : List Dlg) :
    (sortByStart l).Pairwise fun a b => a.Start ≤ b.Start := by
  induction l with
  | nil => simp [sortByStart]
  | cons x xs ih => exact insertDlg_pairwise x (sortByStart xs) ih

/-- Every start in the output of one coalescing step is the start of the
incoming block or of some accumulator entry (the step never invents or moves
a start time). -/
theorem mergeStep_start_mem (tol : ℚ) (acc : List Dlg) (cur : Dlg) :
    ∀ a ∈ mergeStep tol acc cur, a.Start = cur.Start ∨ ∃ b ∈ acc, a.Start = b.Start := by
  intro a ha
  match acc with
  | [] =>
    simp only [mergeStep, List.mem_singleton] at ha
    exact Or.inl (ha ▸ rfl)
  | last :: t =>
    rw [mergeStep] at ha
    split at ha
    · split at ha
      · exact Or.inr ⟨a, ha, rfl⟩
      · split at ha
        · rcases List.mem_cons.mp ha with h | h
          · exact Or.inr ⟨last, List.mem_cons_self last t, h ▸ rfl⟩
          · exact Or.inr ⟨a, List.mem_cons_of_mem last h, rfl⟩
        · rcases List.mem_cons.mp ha with h | h
          · exact Or.inl (h ▸ rfl)
          · exact Or.inr ⟨a, h, rfl⟩
    · rcases List.mem_cons.mp ha with h | h
      · exact Or.inl (h ▸ rfl)
      · exact Or.inr ⟨a, h, rfl⟩

/-- One coalescing step keeps the accumulator sorted in reverse order of
start, provided the incoming block starts no earlier than every accumulator
entry. -/
theorem mergeStep_pairwise (tol : ℚ) (acc : List Dlg) (cur : Dlg)
    (hacc : acc.Pairwise fun a b => b.Start ≤ a.Start)
    (hbelow : ∀ a ∈ acc, a.Start ≤ cur.Start) :
    (mergeStep tol acc cur).Pairwise fun a b => b.Start ≤ a.Start := by
  match acc with
  | [] => simp [mergeStep]
  | last :: t =>
    rw [List.pairwise_cons] at hacc
    rw [mergeStep]
    split
    · split
      · exact List.Pairwise.cons hacc.1 hacc.2
      · split
        · exact List.Pairwise.cons hacc.1 hacc.2
        · exact List.Pairwise.cons
            (fun x hx => hbelow x hx) (List.Pairwise.cons hacc.1 hacc.2)
    · exact List.Pairwise.cons
        (fun x hx => hbelow x hx) (List.Pairwise.cons hacc.1 hacc.2)

/-- The coalescing fold keeps the (reversed) accumulator sorted. -/
theorem mergeFold_pairwise (tol : ℚ) :
    ∀ (rest acc : List Dlg),
      rest.Pairwise (fun a b => a.Start ≤ b.Start) →
      acc.Pairwise (fun a b => b.Start ≤ a.Start) →
      (∀ a ∈ acc, ∀ r ∈ rest, a.Start ≤ r.Start) →
      (rest.foldl (mergeStep tol) acc).Pairwise fun a b => b.Start ≤ a.Start := by
  intro rest
  induction rest with
  | nil => intro acc _ hacc _; simpa using hacc
  | cons cur rest ih =>
    intro acc hrest hacc hbelow
    rw [List.pairwise_cons] at hrest
    rw [List.foldl_cons]
    refine ih _ hrest.2 ?_ ?_
    · exact mergeStep_pairwise tol acc cur hacc
        (fun a ha => hbelow a ha cur (List.mem_cons_self cur rest))
    · intro a ha r hr
      rcases mergeStep_start_mem tol acc cur a ha with h | ⟨b, hb, h⟩
      · exact h ▸ hrest.1 r hr
      · exact h ▸ hbelow b hb r (List.mem_cons_of_mem cur hr)

/-- The coalescing merge pass yields a list sorted by start time. -/
theorem mergeSameOrContinuous_pairwise (dlgs : List Dlg) (tol : ℚ) :
    (mergeSameOrContinuous dlgs tol).Pairwise fun a b => a.Start ≤ b.Start := by
  rw [mergeSameOrContinuous, List.pairwise_reverse]
  exact mergeFold_pairwise tol (sortByStart dlgs) []
    (sortByStart_pairwise dlgs) (by simp) (by simp)

/-! ### The group-and-join pass equals its specification -/

/-- Looking a key up after appending a text. -/
theorem alGet_alAppend (g : List (GKey × List (List Char))) (k : GKey)
    (t : List Char) (k' : GKey) :
    alGet (alAppend g k t) k' =
      if k' = k then some ((alGet g k).getD [] ++ [t]) else alGet g k' := by
  induction g with
  | nil =>
    by_cases h : k' = k
    · subst h; simp [alAppend, alGet]
    · simp [alAppend, alGet, h, Ne.symm h]
  | cons hd tl ih =>
    obtain ⟨k'', v⟩ := hd
    by_cases h1 : k'' = k
    · subst h1
      by_cases h2 : k' = k''
      · subst h2; simp [alAppend, alGet]
      · simp [alAppend, alGet, h2, Ne.symm h2]
    · by_cases h2 : k' = k''
      · subst h2
        simp [alAppend, alGet, h1, Ne.symm h1]
      · simp [alAppend, alGet, h1, h2, Ne.symm h2, ih]

/-- The order slice built by the grouping loop is the first-occurrence key
list, given that the order slice mirrors the map's key set. -/
theorem buildGroups_order (dlgs : List Dlg) :
    ∀ (g : List (GKey × List (List Char))) (ord : List GKey),
      (∀ k, (alGet g k).isSome ↔ k ∈ ord) →
      (dlgs.foldl addToGroups (g, ord)).2 = (dlgs.map keyOf).foldl insKey ord := by
  induction dlgs with
  | nil => intro g ord _; simp
  | cons d rest ih =>
    intro g ord hinv
    rw [List.foldl_cons, List.map_cons, List.foldl_cons]
    have horder : (addToGroups (g, ord) d).2 = insKey ord (keyOf d) := by
      rw [addToGroups, insKey]
      by_cases h : keyOf d ∈ ord
      · rw [if_pos ((hinv (keyOf d)).mpr h), if_pos h]
      · rw [if_neg (fun hs => h ((hinv (keyOf d)).mp hs)), if_neg h]
    have hg : (addToGroups (g, ord) d).1 = alAppend g (keyOf d) d.Text := rfl
    rw [show addToGroups (g, ord) d =
          ((addToGroups (g, ord) d).1, (addToGroups (g, ord) d).2) from rfl,
        hg, horder]
    refine ih _ _ ?_
    intro k
    rw [alGet_alAppend]
    by_cases hk : k = keyOf d
    · subst hk
      rw [if_pos rfl]
      simp only [Option.isSome_some, true_iff, insKey]
      by_cases h : keyOf d ∈ ord
      · rw [if_pos h]; exact h
      · rw [if_neg h]
        exact List.mem_append_right ord (List.mem_singleton_self (keyOf d))
    · rw [if_neg hk, hinv k, insKey]
      by_cases h : keyOf d ∈ ord
      · rw [if_pos h]
      · rw [if_neg h]
        constructor
        · exact fun hm => List.mem_append_left _ hm
        · intro hm
          rcases List.mem_append.mp hm with hm | hm
          · exact hm
          · exact absurd (List.mem_singleton.mp hm) hk

/-- The groups map built by the grouping loop holds, for each key, the texts
of that key's blocks in input order. -/
theorem buildGroups_texts (dlgs : List Dlg) :
    ∀ (g : List (GKey × List (List Char))) (ord : List GKey) (k : GKey),
      (alGet (dlgs.foldl addToGroups (g, ord)).1 k).getD [] =
        (alGet g k).getD [] ++ (dlgs.filter fun d => keyOf d = k).map (·.Text) := by
  induction dlgs with
  | nil => intro g ord k; simp
  | cons d rest ih =>
    intro g ord k
    rw [List.foldl_cons]
    rw [show rest.foldl addToGroups (addToGroups (g, ord) d) =
          rest.foldl addToGroups ((addToGroups (g, ord) d).1, (addToGroups (g, ord) d).2)
        from rfl]
    rw [ih]
    have hg : (addToGroups (g, ord) d).1 = alAppend g (keyOf d) d.Text := rfl
    rw [hg, alGet_alAppend]
    by_cases hk : k = keyOf d
    · subst hk
      rw [if_pos rfl]
      simp [List.filter_cons]
    · rw [if_neg hk]
      have hne : ¬ (keyOf d = k) := fun h => hk h.symm
      simp [List.filter_cons, hne]

/-- The map-plus-order-slice implementation of `mergeSameTimeAndStyle`
computes exactly the specification's group-and-join. -/
theorem mergeSameTimeAndStyle_eq_spec (dlgs : List Dlg) :
    mergeSameTimeAndStyle dlgs = groupJoinSpec dlgs := by
  rw [mergeSameTimeAndStyle, groupJoinSpec]
  have horder : (buildGroups dlgs).2 = firstOccur (dlgs.map keyOf) :=
    buildGroups_order dlgs [] [] (by intro k; simp [alGet])
  rw [horder]
  refine List.map_congr_left ?_
  intro k _
  have htexts := buildGroups_texts dlgs [] [] k
  rw [show buildGroups dlgs = dlgs.foldl addToGroups ([], []) from rfl, htexts]
  simp [alGet]

/-! ### Trimming lemmas for the style classifier -/

/-- Dropping is idempotent. -/
theorem dropWhile_idem (p : Char → Bool) (l : List Char) :
    (l.dropWhile p).dropWhile p = l.dropWhile p := by
  induction l with
  | nil => rfl
  | cons c rest ih =>
    by_cases h : p c
    · rw [List.dropWhile_cons_of_pos h, ih]
    · rw [List.dropWhile_cons_of_neg h, List.dropWhile_cons_of_neg h]

/-- A list whose head survives a stronger predicate also survives a weaker
one. -/
theorem dropWhile_eq_self_mono {p q : Char → Bool}
    (hpq : ∀ c, q c = true → p c = true) (l : List Char)
    (h : l.dropWhile p = l) : l.dropWhile q = l := by
  cases l with
  | nil => rfl
  | cons c rest =>
    by_cases hc : p c
    · exfalso
      rw [List.dropWhile_cons_of_pos hc] at h
      have hlen := congrArg List.length h
      have hle := (List.dropWhile_sublist p (l := rest)).length_le
      simp only [List.length_cons] at hlen
      omega
    · exact List.dropWhile_cons_of_neg fun hq => hc (hpq c hq)

/-- Trailing-trim of a non-empty list is empty or keeps the head. -/
theorem dropTrail_cons (p : Char → Bool) (c : Char) (t : List Char) :
    dropTrail p (c :: t) = [] ∨ ∃ u, dropTrail p (c :: t) = c :: u := by
  rw [dropTrail, List.reverse_cons, List.dropWhile_append]
  by_cases h : (List.dropWhile p t.reverse).isEmpty
  · rw [if_pos h]
    by_cases hc : p c
    · left
      rw [List.dropWhile_cons_of_pos hc]
      rfl
    · right
      refine ⟨[], ?_⟩
      rw [List.dropWhile_cons_of_neg hc]
      rfl
  · rw [if_neg h]
    exact Or.inr ⟨(List.dropWhile p t.reverse).reverse, by simp⟩

/-- A list fixed by a leading drop stays fixed after a trailing trim. -/
theorem dropWhile_dropTrail_self (p : Char → Bool) (l : List Char)
    (h : l.dropWhile p = l) : (dropTrail p l).dropWhile p = dropTrail p l := by
  cases l with
  | nil => rfl
  | cons c t =>
    have hc : ¬ p c := by
      intro hc
      rw [List.dropWhile_cons_of_pos hc] at h
      have hlen := congrArg List.length h
      have hle := (List.dropWhile_sublist p (l := t)).length_le
      simp only [List.length_cons] at hlen
      omega
    rcases dropTrail_cons p c t with h1 | ⟨u, h1⟩
    · rw [h1]; rfl
    · rw [h1]
      exact List.dropWhile_cons_of_neg hc

/-- Trimming by a weaker predicate after trimming by a stronger one is a
no-op. -/
theorem trimBy_trimBy {p q : Char → Bool}
    (hpq : ∀ c, q c = true → p c = true) (l : List Char) :
    trimBy q (trimBy p l) = trimBy p l := by
  have hA : (trimBy p l).dropWhile p = trimBy p l :=
    dropWhile_dropTrail_self p (l.dropWhile p) (dropWhile_idem p l)
  have hB : (trimBy p l).dropWhile q = trimBy p l :=
    dropWhile_eq_self_mono hpq _ hA
  have hrev : (trimBy p l).reverse = List.dropWhile p ((l.dropWhile p).reverse) := by
    rw [trimBy, dropTrail, List.reverse_reverse]
  have hArev : (trimBy p l).reverse.dropWhile p = (trimBy p l).reverse := by
    rw [hrev]
    exact dropWhile_idem p ((l.dropWhile p).reverse)
  have hBrev : (trimBy p l).reverse.dropWhile q = (trimBy p l).reverse :=
    dropWhile_eq_self_mono hpq _ hArev
  show dropTrail q ((trimBy p l).dropWhile q) = trimBy p l
  rw [hB, dropTrail, hBrev, List.reverse_reverse]

/-- The RE2 class `\s` is contained in Go's `unicode.IsSpace`. -/
theorem isSpaceRe_to_go : ∀ c, isSpaceRe c = true → isSpaceGo c = true := by
  intro c h
  simp only [isSpaceRe, Bool.or_eq_true, decide_eq_true_eq] at h
  simp only [isSpaceGo, Bool.or_eq_true, decide_eq_true_eq]
  tauto

/-- `trimRe` is a no-op on a `trimSpace`-trimmed string. -/
theorem trimRe_trimSpace (l : List Char) : trimRe (trimSpace l) = trimSpace l :=
  trimBy_trimBy isSpaceRe_to_go l

/-- The accumulating first-occurrence fold yields a sublist of the
accumulator followed by the input. -/
theorem firstOccur_fold_sublist :
    ∀ (ks acc : List GKey), List.Sublist (ks.foldl insKey acc) (acc ++ ks) := by
  intro ks
  induction ks with
  | nil => intro acc; simp
  | cons k ks ih =>
    intro acc
    rw [List.foldl_cons, insKey]
    by_cases h : k ∈ acc
    · rw [if_pos h]
      exact (ih acc).trans ((List.sublist_cons_self k ks).append_left acc)
    · rw [if_neg h]
      have := ih (acc ++ [k])
      rwa [List.append_assoc, List.singleton_append] at this

/-- First-occurrence keys form a sublist of the key list. -/
theorem firstOccur_sublist (ks : List GKey) :
    List.Sublist (firstOccur ks) ks := by
  simpa using firstOccur_fold_sublist ks []

/-! ### Claim theorems -/

/-- C1.  For an SRT input with exactly two cues "HELLO" over `[0,2000)` and
`[2050,4000)`, the conversion pipeline with tolerance 0.1 produces exactly
one `Dialogue` line, spanning `0:00:00.00` to `0:00:04.00`, with style
`tanda` and text exactly `HELLO`, with no blur/fade prefix. -/
theorem c1_end_to_end_hello :
    ConvertSRTBlocksToASS
      (parseSRTString ("1\n00:00:00,000 --> 00:00:02,000\nHELLO\n\n2\n00:00:02,050 --> 00:00:04,000\nHELLO\n").toList)
      (1 / 10) =
    ["Dialogue: 0,0:00:00.00,0:00:04.00,tanda,,0,0,0,,HELLO".toList] := by
  rw [qTenth_eq]
  decide

/-- C2.  Two blocks with identical text and style over `[0,1000)` and
`[1050,2000)` merge into one block over `[0,2000)` under tolerance 0.1 s,
and stay separate and unchanged under tolerance 0.02 s. -/
theorem c2_merge_tolerance (t : List Char) (sty : String) :
    mergeSameOrContinuous
        [{ Start := 0, End := 1000, Text := t, Style := sty },
         { Start := 1050, End := 2000, Text := t, Style := sty }] (1 / 10) =
      [{ Start := 0, End := 2000, Text := t, Style := sty }] ∧
    mergeSameOrContinuous
        [{ Start := 0, End := 1000, Text := t, Style := sty },
         { Start := 1050, End := 2000, Text := t, Style := sty }] (1 / 50) =
      [{ Start := 0, End := 1000, Text := t, Style := sty },
       { Start := 1050, End := 2000, Text := t, Style := sty }] := by
  rw [qTenth_eq, qFiftieth_eq]
  constructor
  · simp [mergeSameOrContinuous, sortByStart, insertDlg, mergeStep, gapWithin]
    decide
  · simp [mergeSameOrContinuous, sortByStart, insertDlg, mergeStep, gapWithin]
    decide

/-- C3.  The group-and-join pass maps to the specification's description —
groups keyed by `(start, end, style)`, member texts joined with `\N` in
first-occurrence order, groups emitted in first-occurrence order of their
keys — and, concretely, two `Default` blocks over `[1000,3000)` with texts
`A` and `B` become one block with text `A\NB`. -/
theorem c3_group_join :
    (∀ dlgs : List Dlg, mergeSameTimeAndStyle dlgs = groupJoinSpec dlgs) ∧
    mergeSameTimeAndStyle
        [{ Start := 1000, End := 3000, Text := "A".toList, Style := "Default" },
         { Start := 1000, End := 3000, Text := "B".toList, Style := "Default" }] =
      [{ Start := 1000, End := 3000, Text := "A\\NB".toList, Style := "Default" }] :=
  ⟨mergeSameTimeAndStyle_eq_spec, by decide⟩

/-- C4.  For every input list and every tolerance, the output of the
coalescing pass followed by the group-and-join pass is non-decreasing in
start time: each block's start is at least the start of the block before
it. -/
theorem c4_output_sorted (dlgs : List Dlg) (tol : ℚ) :
    (mergeSameTimeAndStyle (mergeSameOrContinuous dlgs tol)).Chain'
      fun a b => a.Start ≤ b.Start := by
  have h1 := mergeSameOrContinuous_pairwise dlgs tol
  rw [mergeSameTimeAndStyle_eq_spec, groupJoinSpec]
  have h2 : ((mergeSameOrContinuous dlgs tol).map keyOf).Pairwise
      fun a b => a.S ≤ b.S := by
    rw [List.pairwise_map]
    exact h1
  have h3 : (firstOccur ((mergeSameOrContinuous dlgs tol).map keyOf)).Pairwise
      (fun a b : GKey => a.S ≤ b.S) :=
    h2.sublist (firstOccur_sublist _)
  refine List.Pairwise.chain' ?_
  rw [List.pairwise_map]
  exact h3

/-- C5.  The time parser is a total function into integer milliseconds (no
error value exists in its type) and meets the five reference values of the
specification. -/
theorem c5_time_parser_values :
    parseTimeStringToMs ("00:01:30,500".toList) = 90500 ∧
    parseTimeStringToMs ("1.5s".toList) = 1500 ∧
    parseTimeStringToMs ("2000ms".toList) = 2000 ∧
    parseTimeStringToMs ("".toList) = 0 ∧
    parseTimeStringToMs ("garbage".toList) = 0 := by
  decide

/-- C9.  Duplicate collapse only applies to blocks adjacent after the stable
sort: three `Default` blocks over `(0,1000)` with texts `A`, `B`, `A` come
out of the two merge stages as one block with text `A\NB\NA` — both copies
of `A` survive, for every tolerance. -/
theorem c9_no_nonadjacent_dedup (tol : ℚ) :
    mergeSameTimeAndStyle (mergeSameOrContinuous
        [{ Start := 0, End := 1000, Text := "A".toList, Style := "Default" },
         { Start := 0, End := 1000, Text := "B".toList, Style := "Default" },
         { Start := 0, End := 1000, Text := "A".toList, Style := "Default" }] tol) =
      [{ Start := 0, End := 1000, Text := "A\\NB\\NA".toList, Style := "Default" }] := by
  rfl

/-- C10.  The per-line split keeps empty lines: a `Default` cue with text
`Hello\n\nWorld` over one interval splits into three per-line blocks (the
middle one empty, classified `Default`), and the merge stages join them into
one event with text `Hello\N\NWorld`. -/
theorem c10_multiline_split_empty_lines (tol : ℚ) :
    splitMultiline [{ Index := 1, StartMs := 0, EndMs := 2000, Text := "Hello\n\nWorld".toList }] =
      [{ Index := 1, StartMs := 0, EndMs := 2000, Text := "Hello".toList },
       { Index := 1, StartMs := 0, EndMs := 2000, Text := [] },
       { Index := 1, StartMs := 0, EndMs := 2000, Text := "World".toList }] ∧
    detectStyle [] = "Default" ∧
    mergeSameTimeAndStyle (mergeSameOrContinuous
        (classifyBlocks (splitMultiline
          [{ Index := 1, StartMs := 0, EndMs := 2000, Text := "Hello\n\nWorld".toList }])) tol) =
      [{ Start := 0, End := 2000, Text := "Hello\\N\\NWorld".toList, Style := "Default" }] := by
  refine ⟨by decide, by decide, ?_⟩
  rfl

/-- C6, counterexample.  The text `(abc]` — non-empty after tag stripping
and trimming, containing lowercase letters, and not wrapped in a single
matching pair of parentheses or brackets — is classified `tanda` by the
code, where the claim requires `Default`. -/
theorem c6_counterexample :
    detectStyle ("(abc]".toList) = "tanda" ∧
    trimSpace (removeTags ("(abc]".toList)) = "(abc]".toList ∧
    ("(abc]".toList.head? = some '(' ∧ ¬ "(abc]".toList.getLast? = some ')') := by
  decide

/-- C6, amended.  For every text whose content after stripping `{...}` tag
spans and trimming is non-empty and contains a lowercase ASCII letter, the
classifier returns `tanda` exactly when that content begins with `(` or `[`,
ends with `)` or `]` — the two ends need not match each other — and contains
no newline; otherwise it returns `Default`. -/
theorem c6_amended_wrap_rule (t : List Char)
    (h1 : trimSpace (removeTags t) ≠ [])
    (h2 : ∃ c ∈ trimSpace (removeTags t), 'a' ≤ c ∧ c ≤ 'z') :
    detectStyle t = "tanda" ↔
      ((trimSpace (removeTags t)).head? = some '(' ∨
       (trimSpace (removeTags t)).head? = some '[') ∧
      ((trimSpace (removeTags t)).getLast? = some ')' ∨
       (trimSpace (removeTags t)).getLast? = some ']') ∧
      ¬ '\n' ∈ trimSpace (removeTags t) := by
  obtain ⟨c0, hc0mem, hc0⟩ := h2
  have hcapsAll : (trimSpace (removeTags t)).all (fun c => !('a' ≤ c && c ≤ 'z')) = false :=
    List.all_eq_false.mpr ⟨c0, hc0mem, by simp [hc0.1, hc0.2]⟩
  have hcaps : capsRe (trimSpace (removeTags t)) = false := by
    rw [capsRe, hcapsAll, Bool.and_false]
  have hempty : (trimSpace (removeTags t)).isEmpty = false := by
    cases hcl : trimSpace (removeTags t) with
    | nil => exact absurd hcl h1
    | cons a b => rfl
  have htrim : trimRe (trimSpace (removeTags t)) = trimSpace (removeTags t) :=
    trimRe_trimSpace (removeTags t)
  have hds : detectStyle t = if wrapRe (trimSpace (removeTags t)) then "tanda" else "Default" := by
    simp only [detectStyle, hempty, hcaps, Bool.false_eq_true, if_false]
  have hiff : wrapRe (trimSpace (removeTags t)) = true ↔
      ((trimSpace (removeTags t)).head? = some '(' ∨
       (trimSpace (removeTags t)).head? = some '[') ∧
      ((trimSpace (removeTags t)).getLast? = some ')' ∨
       (trimSpace (removeTags t)).getLast? = some ']') ∧
      ¬ '\n' ∈ trimSpace (removeTags t) := by
    rw [wrapRe, htrim]
    cases hX : trimSpace (removeTags t) with
    | nil => exact absurd hX h1
    | cons c rest =>
      cases rest with
      | nil =>
        constructor
        · intro h; simp [wrapCheck] at h
        · rintro ⟨hh, hl, -⟩
          simp only [List.head?_cons] at hh
          simp only [List.getLast?_singleton] at hl
          rcases hh with hh | hh <;> rcases hl with hl | hl <;> simp_all
      | cons r rs =>
        obtain ⟨lastc, hL⟩ : ∃ x, (r :: rs).getLast? = some x := by
          cases hg : (r :: rs).getLast? with
          | none => exact absurd (List.getLast?_eq_none_iff.mp hg) (by simp)
          | some x => exact ⟨x, rfl⟩
        have hne : r :: rs ≠ [] := by simp
        have hlast : (r :: rs).getLast hne = lastc := by
          have := List.getLast?_eq_getLast (r :: rs) hne
          rw [hL] at this
          exact (Option.some.inj this).symm
        have hdecomp : (r :: rs).dropLast ++ [lastc] = r :: rs := by
          rw [← hlast]
          exact List.dropLast_append_getLast hne
        rw [wrapCheck, hL]
        simp only [List.head?_cons, List.getLast?_cons_cons, hL,
          Bool.and_eq_true, Bool.or_eq_true, decide_eq_true_eq,
          List.all_eq_true, Option.some.injEq]
        constructor
        · rintro ⟨⟨hc, hl⟩, hmid⟩
          refine ⟨hc, hl, ?_⟩
          intro hmem
          rcases List.mem_cons.mp hmem with hmem | hmem
          · rcases hc with hc | hc <;> (rw [hc] at hmem; exact absurd hmem (by decide))
          · rw [← hdecomp] at hmem
            rcases List.mem_append.mp hmem with hm | hm
            · have := hmid '\n' hm
              simp at this
            · have h0 := List.mem_singleton.mp hm
              rcases hl with hl | hl <;> (rw [hl] at h0; exact absurd h0 (by decide))
        · rintro ⟨hc, hl, hnot⟩
          refine ⟨⟨hc, hl⟩, ?_⟩
          intro x hx
          have hx2 : x ∈ r :: rs := (List.dropLast_sublist (r :: rs)).subset hx
          have hx3 : x ∈ c :: r :: rs := List.mem_cons_of_mem c hx2
          intro hxn
          rw [hxn] at hx3
          exact hnot hx3
  rw [hds]
  constructor
  · intro h
    by_cases hw : wrapRe (trimSpace (removeTags t))
    · exact hiff.mp hw
    · rw [if_neg hw] at h
      exact absurd h (by decide)
  · intro h
    rw [if_pos (hiff.mpr h)]

/-- Witness for the amended C6 theorem at the concrete input `(ab)`. -/
theorem c6_amended_witness : detectStyle ("(ab)".toList) = "tanda" :=
  (c6_amended_wrap_rule ("(ab)".toList) (by decide) ⟨'a', by decide⟩).mpr (by decide)

/-! ### The JSON decoder (`converter.go`, `parseJSONToSRT`)

The byte-level JSON grammar is not re-modelled: `json.Unmarshal` is modelled
at the level of already-parsed JSON values (`JValue`), with the Go-specific
behaviours that matter here: unmarshalling a non-object into
`map[string]interface{}` fails, unmarshalling a non-array into
`[]interface{}` fails, and `null` leaves the zero value behind.  JSON
numbers decode to `float64`, modelled by the exact decimals `Dec`. -/

inductive JValue where
  | null : JValue
  | boolean : Bool → JValue
  | num : Dec → JValue
  | str : List Char → JValue
  | arr : List JValue → JValue
  | obj : List (List Char × JValue) → JValue

/-- `json.Unmarshal(data, &root)` for `root : map[string]interface{}`. -/
def unmarshalMap : JValue → Except (List Char) (List (List Char × JValue))
  | .obj o => .ok o
  | .null => .ok []
  | _ => .error ("json: cannot unmarshal value into Go value of type map".toList)

/-- `json.Unmarshal(data, &arr)` for `arr : []interface{}`. -/
def unmarshalArr : JValue → Except (List Char) (List JValue)
  | .arr a => .ok a
  | .null => .ok []
  | _ => .error ("json: cannot unmarshal value into Go value of type slice".toList)

/-- Go map indexing `root[k]`, over the association-list model of a decoded
object. -/
def jlookup : List (List Char × JValue) → List Char → Option JValue
  | [], _ => none
  | (k', v) :: rest, k => if k' = k then some v else jlookup rest k

/-- Strip trailing zeros of a scaled mantissa (for rendering). -/
def normTZAux : Nat → Int → Dec
  | 0, man => ⟨man, 0⟩
  | e + 1, man =>
    if man % 10 = 0 then normTZAux e (man.tdiv 10) else ⟨man, e + 1⟩

/-- Strip trailing zeros of a decimal (for rendering). -/
def Dec.normTZ (a : Dec) : Dec := normTZAux a.exp a.man

/-- Digit string of a natural, left-padded with zeros to a minimum length. -/
def decDigitsPad (n : Nat) (minLen : Nat) : List Char :=
  let s := Nat.toDigits 10 n
  List.replicate (minLen - s.length) '0' ++ s

/-- Rendering of a decimal as Go prints the corresponding `float64` with
`%v`/`%g` in the plain-decimal range (the only range this program meets):
trailing zeros stripped, an explicit integer part, no exponent form. -/
def fmtG (a : Dec) : List Char :=
  let b := a.normTZ
  if b.exp = 0 then intToChars b.man
  else
    let s := decDigitsPad b.man.natAbs (b.exp + 1)
    let cut := s.length - b.exp
    (if b.man < 0 then ['-'] else []) ++ s.take cut ++ '.' :: s.drop cut

/-- `fmt.Sprintf("%v", v)` for the decoded JSON values this program prints. -/
def sprintV : JValue → List Char
  | .str s => s
  | .num d => fmtG d
  | .boolean true => "true".toList
  | .boolean false => "false".toList
  | .null => "<nil>".toList
  | .arr _ => "[...]".toList
  | .obj _ => "map[...]".toList

/-- `converter.go asInt64` (the cases JSON decoding can produce: `float64`
truncates, a string goes through `strconv.ParseInt`, anything else is 0). -/
def asInt64 : JValue → Int
  | .num d => d.trunc
  | .str s =>
    let t := trimSpace s
    match t with
    | '-' :: u => if !u.isEmpty && u.all Char.isDigit then -(digitsVal u : Int) else 0
    | '+' :: u => if !u.isEmpty && u.all Char.isDigit then (digitsVal u : Int) else 0
    | u => if !u.isEmpty && u.all Char.isDigit then (digitsVal u : Int) else 0
  | _ => 0

/-- The `segs` text builder of `jsonEventsToSRT`: `utf8` first, then `text`,
a non-object segment printed directly, all concatenated with no separator. -/
def segText : List JValue → List Char
  | [] => []
  | s :: rest =>
    (match s with
     | .obj m =>
       match jlookup m ("utf8".toList) with
       | some ut => sprintV ut
       | none =>
         match jlookup m ("text".toList) with
         | some txt => sprintV txt
         | none => []
     | other => sprintV other) ++ segText rest

/-- One iteration of the event loop of `jsonEventsToSRT` (`i` is the loop
position): non-objects are skipped. -/
def eventToBlock (i : Nat) (e : JValue) : Option SRTBlock :=
  match e with
  | .obj ev =>
    let startMs :=
      match jlookup ev ("tStartMs".toList) with
      | some v => asInt64 v
      | none =>
        match jlookup ev ("start".toList) with
        | some v => asInt64 v
        | none => 0
    let durMs0 :=
      match jlookup ev ("dDurationMs".toList) with
      | some v => asInt64 v
      | none =>
        match jlookup ev ("duration".toList) with
        | some v => asInt64 v
        | none => 0
    let durMs := if durMs0 = 0 then 2000 else durMs0
    let text :=
      match jlookup ev ("segs".toList) with
      | some (.arr segs) => segText segs
      | _ =>
        match jlookup ev ("text".toList) with
        | some v => sprintV v
        | none => []
    some { Index := (i : Int) + 1, StartMs := startMs, EndMs := startMs + durMs,
           Text := trimSpace text }
  | _ => none

/-- The event loop of `jsonEventsToSRT`. -/
def collectEvents : Nat → List JValue → List SRTBlock
  | _, [] => []
  | i, e :: rest =>
    match eventToBlock i e with
    | some b => b :: collectEvents (i + 1) rest
    | none => collectEvents (i + 1) rest

/-- Stable insertion of a block by start time (`sort.Slice` by `StartMs`,
determinised as the stable sort). -/
def insertBlk (b : SRTBlock) : List SRTBlock → List SRTBlock
  | [] => [b]
  | e :: es => if b.StartMs ≤ e.StartMs then b :: e :: es else e :: insertBlk b es

/-- `converter.go jsonEventsToSRT`: decode the events, sort by start. -/
def jsonEventsToSRT (events : List JValue) : List SRTBlock :=
  (collectEvents 0 events).foldr insertBlk []

/-- `converter.go parseJSONToSRT`, at the level of the decoded JSON value:
unmarshal into a map (an early return on failure), look for `events`, and
only if the map decode succeeded without an `events` key try the top-level
array. -/
def parseJSONToSRT (v : JValue) : Except (List Char) (List SRTBlock) :=
  match unmarshalMap v with
  | .error e => .error e
  | .ok root =>
    match jlookup root ("events".toList) with
    | some eventsRaw =>
      match eventsRaw with
      | .arr events => .ok (jsonEventsToSRT events)
      | _ => .error ("events is not array".toList)
    | none =>
      match unmarshalArr v with
      | .ok arr => .ok (jsonEventsToSRT arr)
      | .error _ => .error ("no events array found in JSON".toList)

/-- The failing input of C7: a top-level JSON array holding one ordinary
event object. -/
def c7FailingInput : JValue :=
  JValue.arr [JValue.obj
    [("tStartMs".toList, JValue.num ⟨0, 0⟩),
     ("dDurationMs".toList, JValue.num ⟨1000, 0⟩),
     ("segs".toList, JValue.arr [JValue.obj [("utf8".toList, JValue.str ("Hi".toList))]])]]

/-- C7 (code bug).  On a top-level JSON array of event objects the decoder
returns the map-unmarshal error — the array branch is unreachable because
the failed object decode returns early — even though the same events decode
cleanly through the event loop, as the second conjunct shows. -/
theorem c7_json_array_error :
    (∃ err, parseJSONToSRT c7FailingInput = .error err) ∧
    (match c7FailingInput with
     | JValue.arr events => jsonEventsToSRT events
     | _ => []) =
      [{ Index := 1, StartMs := 0, EndMs := 1000, Text := "Hi".toList }] := by
  exact ⟨⟨_, rfl⟩, rfl⟩

/-! ### The resolution resampler, per style line (`pipeline.go`,
`ResampleASSFileTo1080` steps 3–4 and `rescaleStyleMargins`)

The scale factors `fx = 1920/oldX`, `fy = 1080/oldY`, `f = (fx+fy)/2` are
`float64` values in Go; they are modelled by exact decimals (`Dec`), exact
for the resolutions of interest (e.g. 1280×720 → 1920×1080 gives
`fx = fy = f = 1.5`).  File reading, the `PlayResX`/`PlayResY` header
rewrite and the provenance comment (steps 1–2, which touch only header
lines) and the `rescaleDialogueTags` pass (step 5, whose patterns all
require a backslash) are outside the per-style-line model; the theorems
below assume backslash-free fields, on which step 5 cannot fire. -/

/-- Exact product of decimals (`float64` multiplication in the modelled
range). -/
def Dec.mul (a b : Dec) : Dec := ⟨a.man * b.man, a.exp + b.exp⟩

/-- Go's `%.0f`: round to the nearest integer, ties to even. -/
def Dec.roundHalfEven (a : Dec) : Int :=
  let d : Int := 10 ^ a.exp
  let qu := a.man.fdiv d
  let rem := a.man - qu * d
  if 2 * rem < d then qu
  else if d < 2 * rem then qu + 1
  else if qu % 2 = 0 then qu else qu + 1

/-- Rendering with `fmt.Sprintf("%.0f", ·)`. -/
def fmtF0 (a : Dec) : List Char := intToChars a.roundHalfEven

/-- `pipeline.go splitCSVPreserve`: split on commas, trim each part. -/
def splitCSVPreserve (l : List Char) : List (List Char) :=
  (splitOnChar ',' l).map trimSpace

/-- In-place update of one list entry (out-of-range indices leave the list
unchanged, like the Go length guards). -/
def modifyAt : List (List Char) → Nat → (List Char → List Char) → List (List Char)
  | [], _, _ => []
  | x :: rest, 0, g => g x :: rest
  | x :: rest, n + 1, g => x :: modifyAt rest n g

/-- One numeric field update: parse, rescale, re-format; on a parse failure
keep the field (`if err == nil` in Go). -/
def rescaleField (factor : Dec) (fmt : Dec → List Char) (v : List Char) : List Char :=
  match parseFloatDec v with
  | some x => fmt (x.mul factor)
  | none => v

/-- Replacement body of the regex
`(?m)^Style:\s*([^,]+),([^,]+),([0-9.]+),(.*)$` of step 3, applied to the
comma segments of one line: on a match, rebuild
`Style: <name>,Basic Comical NC,<fontsize>,<rest>`. -/
def styleFontReplaceSegs (line : List Char) : List (List Char) → List Char
  | s0 :: s1 :: s2 :: rest =>
    if rest ≠ [] ∧ "Style:".toList.isPrefixOf s0 ∧ 6 < s0.length ∧ s1 ≠ [] ∧
        s2 ≠ [] ∧ s2.all (fun c => Char.isDigit c || c = '.') then
      "Style: ".toList ++ (trimSpace (s0.drop 6) ++ (",Basic Comical NC,".toList ++
        (trimSpace s2 ++ (',' :: List.intercalate [','] rest))))
    else line
  | _ => line

/-- Step 3 of `ResampleASSFileTo1080` on one line. -/
def styleFontReplace (line : List Char) : List Char :=
  styleFontReplaceSegs line (splitOnChar ',' line)

/-- Step 3's inline pass: `reFnInline.ReplaceAllString(content, "\fnBasic
Comical NC")` for `(?i)\\fn[^\\\}]+`. -/
def replaceFnInline (l : List Char) : List Char :=
  replaceAllRe matchFn ("\\fnBasic Comical NC".toList) l

/-- The field updates of the `rescaleStyleMargins` loop, in source order:
re-trim every field, then rescale Fontsize (2) by `f`, Outline (16) and
Shadow (17) by `f`, MarginL (19) and MarginR (20) by `fx`, MarginV (21) by
`fy`. -/
def rescaleParts (fx fy f : Dec) (parts : List (List Char)) : List (List Char) :=
  modifyAt (modifyAt (modifyAt (modifyAt (modifyAt (modifyAt
    (parts.map trimSpace)
    2 (rescaleField f fmtF0)) 16 (rescaleField f fmtG)) 17 (rescaleField f fmtG))
    19 (rescaleField fx fmtF0)) 20 (rescaleField fx fmtF0)) 21 (rescaleField fy fmtF0)

/-- The loop body of `rescaleStyleMargins` for one line: on a `Style:` line
with at least 22 comma fields, apply the field updates and rebuild the
line. -/
def rescaleStyleLine (fx fy f : Dec) (line : List Char) : List Char :=
  if ("Style:".toList).isPrefixOf line then
    if 22 ≤ (splitCSVPreserve (line.drop 6)).length then
      "Style: ".toList ++
        List.intercalate [','] (rescaleParts fx fy f (splitCSVPreserve (line.drop 6)))
    else line
  else line

/-- `pipeline.go rescaleStyleMargins` over a whole document (the
`bufio.Scanner` loop; a trailing newline of the input is preserved here
where the scanner would drop it — the per-line behaviour is identical). -/
def rescaleStyleMargins (fx fy f : Dec) (content : List Char) : List Char :=
  List.intercalate ['\n']
    (((splitOnChar '\n' content).map fun v =>
        if v.getLast? = some '\r' then v.dropLast else v).map
      (rescaleStyleLine fx fy f))

/-- The complete per-style-line transformation of `ResampleASSFileTo1080`:
step 3's regex replacement, the inline `\fn` pass, then the
`rescaleStyleMargins` field updates. -/
def resampleStyleLine (fx fy f : Dec) (line : List Char) : List Char :=
  rescaleStyleLine fx fy f (replaceFnInline (styleFontReplace line))

/-- The concrete style line of the C8 counterexample: the repository's own
`Default` style schema with `Spacing` (field 13) set to 5. -/
def c8Line : List Char :=
  "Style: Default,Arial,70,&H00FFFFFF,&H00FFFFFF,&H00000000,&H80000000,0,0,0,0,100,100,5,0,1,1.5,1,2,64,64,33,1".toList

/-! ### Splitting and no-op lemmas for the resampler proofs -/

/-- Unfolding of a two-element-or-more intercalate. -/
theorem intercalate_cons₂ (sep : Char) (p q : List Char) (rest : List (List Char)) :
    List.intercalate [sep] (p :: q :: rest) = p ++ sep :: List.intercalate [sep] (q :: rest) := by
  simp [List.intercalate, List.intersperse]

/-- A separator-free string splits into itself. -/
theorem splitOnChar_no_sep (sep : Char) :
    ∀ l : List Char, sep ∉ l → splitOnChar sep l = [l] := by
  intro l
  induction l with
  | nil => intro _; rfl
  | cons c rest ih =>
    intro h
    have hc : ¬ c = sep := fun hh => h (hh ▸ List.mem_cons_self c rest)
    rw [splitOnChar, if_neg hc, ih fun hm => h (List.mem_cons_of_mem c hm)]

/-- Splitting after a separator-free prefix. -/
theorem splitOnChar_append_cons (sep : Char) :
    ∀ (p t : List Char), sep ∉ p →
      splitOnChar sep (p ++ sep :: t) = p :: splitOnChar sep t := by
  intro p
  induction p with
  | nil =>
    intro t _
    rw [List.nil_append, splitOnChar, if_pos rfl]
  | cons c p' ih =>
    intro t h
    have hc : ¬ c = sep := fun hh => h (hh ▸ List.mem_cons_self c p')
    rw [List.cons_append, splitOnChar, if_neg hc,
      ih t fun hm => h (List.mem_cons_of_mem c hm)]

/-- Splitting undoes an intercalation of separator-free parts. -/
theorem splitOnChar_intercalate (sep : Char) :
    ∀ parts : List (List Char), parts ≠ [] → (∀ p ∈ parts, sep ∉ p) →
      splitOnChar sep (List.intercalate [sep] parts) = parts := by
  intro parts
  induction parts with
  | nil => intro h _; exact absurd rfl h
  | cons p rest ih =>
    intro _ hmem
    cases rest with
    | nil =>
      have h1 : List.intercalate [sep] [p] = p := by
        simp [List.intercalate, List.intersperse]
      rw [h1]
      exact splitOnChar_no_sep sep p (hmem p (List.mem_cons_self p []))
    | cons q rest' =>
      rw [intercalate_cons₂,
        splitOnChar_append_cons sep p _ (hmem p (List.mem_cons_self p _)),
        ih (by simp) fun x hx => hmem x (List.mem_cons_of_mem p hx)]

/-- A character distinct from the separator and absent from every part is
absent from the intercalation. -/
theorem not_mem_intercalate (sep c : Char) (hc : c ≠ sep) :
    ∀ parts : List (List Char), (∀ p ∈ parts, c ∉ p) →
      c ∉ List.intercalate [sep] parts := by
  intro parts
  induction parts with
  | nil => intro _; simp [List.intercalate]
  | cons p rest ih =>
    intro hmem
    cases rest with
    | nil =>
      have h1 : List.intercalate [sep] [p] = p := by
        simp [List.intercalate, List.intersperse]
      rw [h1]
      exact hmem p (List.mem_cons_self p [])
    | cons q rest' =>
      rw [intercalate_cons₂]
      intro hm
      rcases List.mem_append.mp hm with hm | hm
      · exact hmem p (List.mem_cons_self p _) hm
      · rcases List.mem_cons.mp hm with hm | hm
        · exact hc hm
        · exact ih (fun x hx => hmem x (List.mem_cons_of_mem p hx)) hm

/-- The `\fn` matcher cannot fire without a leading backslash. -/
theorem matchFn_none_of_head (c : Char) (rest : List Char) (h : c ≠ '\\') :
    matchFn (c :: rest) = none := by
  match rest with
  | [] => rfl
  | [x] => rfl
  | x :: y :: t => simp [matchFn, h]

/-- The `\fn` scan is the identity on backslash-free input. -/
theorem scanRepl_fn_id (repl : List Char) :
    ∀ (fuel : Nat) (l : List Char), '\\' ∉ l → scanRepl matchFn repl fuel l = l := by
  intro fuel
  induction fuel with
  | zero => intro l _; rfl
  | succ n ih =>
    intro l hl
    cases l with
    | nil => rfl
    | cons c rest =>
      have hc : c ≠ '\\' := fun h => hl (h ▸ List.mem_cons_self c rest)
      rw [scanRepl, matchFn_none_of_head c rest hc,
        ih rest fun h => hl (List.mem_cons_of_mem c h)]

/-- The inline `\fn` replacement is the identity on backslash-free input. -/
theorem replaceFnInline_id (l : List Char) (h : '\\' ∉ l) :
    replaceFnInline l = l :=
  scanRepl_fn_id _ l.length l h

/-- A leading space disappears under trimming. -/
theorem trimSpace_cons_space (l : List Char) :
    trimSpace (' ' :: l) = trimSpace l := by
  rw [trimSpace, trimSpace, trimBy, trimBy,
    List.dropWhile_cons_of_pos (by decide)]

/-- The literal `Style:` starts every string of the form `Style: ` ++ x. -/
theorem stylePrefix_append (x : List Char) :
    "Style:".toList.isPrefixOf ("Style: ".toList ++ x) = true := rfl

/-- C8, counterexample.  Resampling the repository's 23-field `Default`
style line (with `Spacing` = 5) from 1280×720 to 1920×1080 (`fx = fy = f =
1.5`) rescales font size, outline, shadow and margins and replaces the font,
but leaves the `Spacing` field (index 13) at `5`, although multiplying it by
`f` would change its value. -/
theorem c8_counterexample_spacing :
    resampleStyleLine ⟨15, 1⟩ ⟨15, 1⟩ ⟨15, 1⟩ c8Line =
      "Style: Default,Basic Comical NC,105,&H00FFFFFF,&H00FFFFFF,&H00000000,&H80000000,0,0,0,0,100,100,5,0,1,2.25,1.5,2,96,96,50,1".toList ∧
    (splitCSVPreserve ((resampleStyleLine ⟨15, 1⟩ ⟨15, 1⟩ ⟨15, 1⟩ c8Line).drop 6))[13]? =
      some ("5".toList) ∧
    parseFloatDec ("5".toList) = some ⟨5, 0⟩ ∧
    Dec.toQ (Dec.mul ⟨5, 0⟩ ⟨15, 1⟩) ≠ Dec.toQ ⟨5, 0⟩ := by
  refine ⟨by decide, by decide, by decide, ?_⟩
  norm_num [Dec.toQ, Dec.mul]


/-- Mapping `trimSpace` over already-trimmed parts is the identity. -/
theorem map_trim_fixed (l : List (List Char)) (h : ∀ p ∈ l, trimSpace p = p) :
    List.map trimSpace l = l := by
  induction l with
  | nil => rfl
  | cons x rest ih =>
    rw [List.map_cons, h x (List.mem_cons_self x rest),
      ih fun p hp => h p (List.mem_cons_of_mem x hp)]

/-- C8, amended.  For every canonical `Style:` line of the 23-field V4+
schema — comma-free, backslash-free, trimmed fields; a non-empty font name;
a numeric Fontsize — the per-style-line resample replaces the font name
(field 1) with `Basic Comical NC`, multiplies Fontsize (field 2) by `f`
(formatted `%.0f`), Outline (16) and Shadow (17) by `f` (formatted `%g`),
MarginL (19) and MarginR (20) by `fx` and MarginV (21) by `fy` (formatted
`%.0f`), and leaves every other field — including Spacing (field 13) —
unchanged. -/
theorem c8_amended_style_rescale (fx fy f : Dec)
    (a0 a1 a2 a3 a4 a5 a6 a7 a8 a9 a10 a11 a12 a13 a14 a15 a16 a17 a18 a19 a20 a21 a22 : List Char)
    (v2 v16 v17 v19 v20 v21 : Dec)
    (hfields : ∀ p ∈ [a0, a1, a2, a3, a4, a5, a6, a7, a8, a9, a10, a11, a12,
        a13, a14, a15, a16, a17, a18, a19, a20, a21, a22],
      ',' ∉ p ∧ '\\' ∉ p ∧ trimSpace p = p)
    (hfont : a1 ≠ [])
    (hfs : a2 ≠ [] ∧ a2.all fun c => Char.isDigit c || c = '.')
    (hv2 : parseFloatDec a2 = some v2)
    (hv16 : parseFloatDec a16 = some v16)
    (hv17 : parseFloatDec a17 = some v17)
    (hv19 : parseFloatDec a19 = some v19)
    (hv20 : parseFloatDec a20 = some v20)
    (hv21 : parseFloatDec a21 = some v21) :
    resampleStyleLine fx fy f
        ("Style: ".toList ++ List.intercalate [','] [a0, a1, a2, a3, a4, a5,
          a6, a7, a8, a9, a10, a11, a12, a13, a14, a15, a16, a17, a18, a19,
          a20, a21, a22]) =
      "Style: ".toList ++ List.intercalate [','] [a0, "Basic Comical NC".toList,
        fmtF0 (v2.mul f), a3, a4, a5, a6, a7, a8, a9, a10, a11, a12, a13, a14,
        a15, fmtG (v16.mul f), fmtG (v17.mul f), a18, fmtF0 (v19.mul fx),
        fmtF0 (v20.mul fx), fmtF0 (v21.mul fy), a22] := by
  have hmemtail : ∀ p ∈ [a1, a2, a3, a4, a5, a6, a7, a8, a9, a10, a11, a12,
      a13, a14, a15, a16, a17, a18, a19, a20, a21, a22],
      ',' ∉ p ∧ '\\' ∉ p ∧ trimSpace p = p :=
    fun p hp => hfields p (List.mem_cons_of_mem a0 hp)
  have hmem3 : ∀ p ∈ [a3, a4, a5, a6, a7, a8, a9, a10, a11, a12,
      a13, a14, a15, a16, a17, a18, a19, a20, a21, a22],
      ',' ∉ p ∧ '\\' ∉ p ∧ trimSpace p = p :=
    fun p hp => hfields p (List.mem_cons_of_mem a0 (List.mem_cons_of_mem a1
      (List.mem_cons_of_mem a2 hp)))
  have ha0 := hfields a0 (by simp)
  have ha2 := hfields a2 (by simp)
  have hlineform :
      ("Style: ".toList ++ List.intercalate [','] [a0, a1, a2, a3, a4, a5,
        a6, a7, a8, a9, a10, a11, a12, a13, a14, a15, a16, a17, a18, a19,
        a20, a21, a22]) =
      List.intercalate [','] (("Style: ".toList ++ a0) :: [a1, a2, a3, a4, a5,
        a6, a7, a8, a9, a10, a11, a12, a13, a14, a15, a16, a17, a18, a19,
        a20, a21, a22]) := rfl
  have hsegs :
      splitOnChar ',' (List.intercalate [','] (("Style: ".toList ++ a0) ::
        [a1, a2, a3, a4, a5, a6, a7, a8, a9, a10, a11, a12, a13, a14, a15,
         a16, a17, a18, a19, a20, a21, a22])) =
      ("Style: ".toList ++ a0) :: [a1, a2, a3, a4, a5, a6, a7, a8, a9, a10,
        a11, a12, a13, a14, a15, a16, a17, a18, a19, a20, a21, a22] := by
    refine splitOnChar_intercalate ',' _ (by simp) ?_
    intro p hp
    rcases List.mem_cons.mp hp with h | h
    · subst h
      intro hm
      rcases List.mem_append.mp hm with hm | hm
      · revert hm; decide
      · exact ha0.1 hm
    · exact (hmemtail p h).1
  have hname : trimSpace (' ' :: a0) = a0 := by
    rw [trimSpace_cons_space]; exact ha0.2.2
  have htrim2 : trimSpace a2 = a2 := ha2.2.2
  have hlen0 : 6 < ("Style: ".toList ++ a0).length := by
    rw [List.length_append, show ("Style: ".toList).length = 7 from rfl]
    omega
  have hsfr :
      styleFontReplace ("Style: ".toList ++ List.intercalate [','] [a0, a1,
        a2, a3, a4, a5, a6, a7, a8, a9, a10, a11, a12, a13, a14, a15, a16,
        a17, a18, a19, a20, a21, a22]) =
      "Style: ".toList ++ (a0 ++ (",Basic Comical NC,".toList ++ (a2 ++
        (',' :: List.intercalate [','] [a3, a4, a5, a6, a7, a8, a9, a10, a11,
          a12, a13, a14, a15, a16, a17, a18, a19, a20, a21, a22])))) := by
    rw [styleFontReplace, hlineform, hsegs, styleFontReplaceSegs]
    rw [if_pos ⟨by simp, stylePrefix_append a0, hlen0, hfont, hfs.1, hfs.2⟩]
    rw [show ("Style: ".toList ++ a0).drop 6 = ' ' :: a0 from rfl, hname, htrim2]
  rw [resampleStyleLine, hsfr]
  have hI3 : '\\' ∉ List.intercalate [','] [a3, a4, a5, a6, a7, a8, a9, a10,
      a11, a12, a13, a14, a15, a16, a17, a18, a19, a20, a21, a22] :=
    not_mem_intercalate ',' '\\' (by decide) _ (fun p hp => (hmem3 p hp).2.1)
  have hnb : '\\' ∉ "Style: ".toList ++ (a0 ++ (",Basic Comical NC,".toList ++
      (a2 ++ (',' :: List.intercalate [','] [a3, a4, a5, a6, a7, a8, a9, a10,
        a11, a12, a13, a14, a15, a16, a17, a18, a19, a20, a21, a22])))) := by
    intro hm
    simp only [List.mem_append, List.mem_cons] at hm
    rcases hm with hm | hm | hm | hm | hm | hm
    · revert hm; decide
    · exact ha0.2.1 hm
    · revert hm; decide
    · exact ha2.2.1 hm
    · revert hm; decide
    · exact hI3 hm
  rw [replaceFnInline_id _ hnb]
  have hdropform :
      ("Style: ".toList ++ (a0 ++ (",Basic Comical NC,".toList ++ (a2 ++
        (',' :: List.intercalate [','] [a3, a4, a5, a6, a7, a8, a9, a10, a11,
          a12, a13, a14, a15, a16, a17, a18, a19, a20, a21, a22]))))).drop 6 =
      List.intercalate [','] ((' ' :: a0) :: "Basic Comical NC".toList :: a2 ::
        [a3, a4, a5, a6, a7, a8, a9, a10, a11, a12, a13, a14, a15, a16, a17,
         a18, a19, a20, a21, a22]) := rfl
  have hsegs2 :
      splitOnChar ',' (List.intercalate [','] ((' ' :: a0) ::
        "Basic Comical NC".toList :: a2 :: [a3, a4, a5, a6, a7, a8, a9, a10,
        a11, a12, a13, a14, a15, a16, a17, a18, a19, a20, a21, a22])) =
      (' ' :: a0) :: "Basic Comical NC".toList :: a2 :: [a3, a4, a5, a6, a7,
        a8, a9, a10, a11, a12, a13, a14, a15, a16, a17, a18, a19, a20, a21,
        a22] := by
    refine splitOnChar_intercalate ',' _ (by simp) ?_
    intro p hp
    rcases List.mem_cons.mp hp with h | hp
    · subst h
      intro hm
      rcases List.mem_cons.mp hm with hm | hm
      · revert hm; decide
      · exact ha0.1 hm
    · rcases List.mem_cons.mp hp with h | hp
      · subst h; decide
      · rcases List.mem_cons.mp hp with h | hp
        · subst h; exact ha2.1
        · exact (hmem3 p hp).1
  have hlit : trimSpace ("Basic Comical NC".toList) = "Basic Comical NC".toList := by
    decide
  have hparts : splitCSVPreserve (("Style: ".toList ++ (a0 ++
      (",Basic Comical NC,".toList ++ (a2 ++ (',' :: List.intercalate [',']
        [a3, a4, a5, a6, a7, a8, a9, a10, a11, a12, a13, a14, a15, a16, a17,
         a18, a19, a20, a21, a22]))))).drop 6) =
      a0 :: "Basic Comical NC".toList :: a2 :: [a3, a4, a5, a6, a7, a8, a9,
        a10, a11, a12, a13, a14, a15, a16, a17, a18, a19, a20, a21, a22] := by
    rw [splitCSVPreserve, hdropform, hsegs2, List.map_cons, hname,
      map_trim_fixed _ ?_]
    intro p hp
    rcases List.mem_cons.mp hp with h | hp
    · subst h; exact hlit
    · rcases List.mem_cons.mp hp with h | hp
      · subst h; exact htrim2
      · exact (hmem3 p hp).2.2
  rw [rescaleStyleLine, if_pos (stylePrefix_append _), hparts,
    if_pos (by simp), rescaleParts]
  have hparts_trim : List.map trimSpace (a0 :: "Basic Comical NC".toList ::
      a2 :: [a3, a4, a5, a6, a7, a8, a9, a10, a11, a12, a13, a14, a15, a16,
      a17, a18, a19, a20, a21, a22]) =
      a0 :: "Basic Comical NC".toList :: a2 :: [a3, a4, a5, a6, a7, a8, a9,
        a10, a11, a12, a13, a14, a15, a16, a17, a18, a19, a20, a21, a22] := by
    refine map_trim_fixed _ ?_
    intro p hp
    rcases List.mem_cons.mp hp with h | hp
    · subst h; exact ha0.2.2
    · rcases List.mem_cons.mp hp with h | hp
      · subst h; exact hlit
      · rcases List.mem_cons.mp hp with h | hp
        · subst h; exact htrim2
        · exact (hmem3 p hp).2.2
  rw [hparts_trim]
  simp only [modifyAt]
  rw [show rescaleField f fmtF0 a2 = fmtF0 (v2.mul f) by rw [rescaleField, hv2],
    show rescaleField f fmtG a16 = fmtG (v16.mul f) by rw [rescaleField, hv16],
    show rescaleField f fmtG a17 = fmtG (v17.mul f) by rw [rescaleField, hv17],
    show rescaleField fx fmtF0 a19 = fmtF0 (v19.mul fx) by rw [rescaleField, hv19],
    show rescaleField fx fmtF0 a20 = fmtF0 (v20.mul fx) by rw [rescaleField, hv20],
    show rescaleField fy fmtF0 a21 = fmtF0 (v21.mul fy) by rw [rescaleField, hv21]]

/-- Witness for the amended C8 theorem: the repository's `Default` style
line (Spacing 5), resampled 1280×720 → 1920×1080. -/
theorem c8_amended_witness :
    resampleStyleLine ⟨15, 1⟩ ⟨15, 1⟩ ⟨15, 1⟩
        ("Style: ".toList ++ List.intercalate [','] ["Default".toList,
          "Arial".toList, "70".toList, "&H00FFFFFF".toList, "&H00FFFFFF".toList,
          "&H00000000".toList, "&H80000000".toList, "0".toList, "0".toList,
          "0".toList, "0".toList, "100".toList, "100".toList, "5".toList,
          "0".toList, "1".toList, "1.5".toList, "1".toList, "2".toList,
          "64".toList, "64".toList, "33".toList, "1".toList]) =
      "Style: ".toList ++ List.intercalate [','] ["Default".toList,
        "Basic Comical NC".toList, fmtF0 (Dec.mul ⟨70, 0⟩ ⟨15, 1⟩),
        "&H00FFFFFF".toList, "&H00FFFFFF".toList, "&H00000000".toList,
        "&H80000000".toList, "0".toList, "0".toList, "0".toList, "0".toList,
        "100".toList, "100".toList, "5".toList, "0".toList, "1".toList,
        fmtG (Dec.mul ⟨15, 1⟩ ⟨15, 1⟩), fmtG (Dec.mul ⟨1, 0⟩ ⟨15, 1⟩),
        "2".toList, fmtF0 (Dec.mul ⟨64, 0⟩ ⟨15, 1⟩),
        fmtF0 (Dec.mul ⟨64, 0⟩ ⟨15, 1⟩), fmtF0 (Dec.mul ⟨33, 0⟩ ⟨15, 1⟩),
        "1".toList] :=
  c8_amended_style_rescale ⟨15, 1⟩ ⟨15, 1⟩ ⟨15, 1⟩
    "Default".toList ("Arial".toList) ("70".toList) ("&H00FFFFFF".toList)
    "&H00FFFFFF".toList ("&H00000000".toList) ("&H80000000".toList) ("0".toList)
    "0".toList ("0".toList) ("0".toList) ("100".toList) ("100".toList) ("5".toList)
    "0".toList ("1".toList) ("1.5".toList) ("1".toList) ("2".toList) ("64".toList)
    "64".toList ("33".toList) ("1".toList)
    ⟨70, 0⟩ ⟨15, 1⟩ ⟨1, 0⟩ ⟨64, 0⟩ ⟨64, 0⟩ ⟨33, 0⟩
    (by decide) (by decide) (by decide)
    (by decide) (by decide) (by decide) (by decide) (by decide) (by decide)
